import Mathlib

/-!
Shallow embedding of the slice-by-slice SAM segmentation pipeline in
`src/napari_nxf/nextflow/modules/models/resources/usr/bin/run_sam.py`,
together with theorems settling the specification claims about it.

A 2D array of shape `H × W` is embedded as a function `Fin H × Fin W → ℕ`
(label arrays) or `→ ℚ` (intensity slices); the 3D label volume as a list of
label arrays.  Exceptions are values of an explicit error type carried by
`Except`.  Real arithmetic is embedded as exact rational arithmetic.
-/

namespace RunSam

/-- Error vocabulary.  `indexError` is Python's built-in `IndexError`
(raised e.g. by `sorted_anns[0]` on an empty list), `fileNotFound` is
`FileNotFoundError` (raised by `Path.unlink` on a missing file),
`writeError` stands for a failed durable write inside `np.save`.
`emptyInputError` names the `EmptyInputError` of the specification's error
taxonomy; no such class exists anywhere in the repository, the constructor
is present only so claims mentioning it can be stated. -/
inductive Err where
  | indexError
  | fileNotFound
  | writeError
  | emptyInputError
deriving DecidableEq

instance {ε α : Type} [DecidableEq ε] [DecidableEq α] :
    DecidableEq (Except ε α) := fun x y =>
  match x, y with
  | .error e, .error e' =>
      if h : e = e' then isTrue (by rw [h]) else isFalse (by simp [h])
  | .ok a, .ok a' =>
      if h : a = a' then isTrue (by rw [h]) else isFalse (by simp [h])
  | .error _, .ok _ => isFalse (by simp)
  | .ok _, .error _ => isFalse (by simp)

/-- Pixel positions of an `H × W` slice. -/
abbrev Pix (H W : ℕ) := Fin H × Fin W

/-- An integer label array of shape `H × W` (one `np.int` per pixel). -/
abbrev Grid (H W : ℕ) := Pix H W → ℕ

/-- An intensity slice of shape `H × W` (scalar values, embedded as ℚ). -/
abbrev QGrid (H W : ℕ) := Pix H W → ℚ

/-- The all-zero label array (`np.zeros`). -/
def zeroGrid (H W : ℕ) : Grid H W := fun _ => 0

instance decEqGrid {H W : ℕ} : DecidableEq (Grid H W) :=
  Fintype.decidablePiFintype

/-- One candidate mask dict produced by `SamAutomaticMaskGenerator.generate`:
the fields read by the code are `"segmentation"` (a boolean array of the
slice's shape) and `"area"` (an integer, stored in the dict, not recomputed). -/
structure Mask (H W : ℕ) where
  segmentation : Pix H W → Bool
  area : ℕ
deriving DecidableEq

/-- The descending-by-area comparison used by line 187's
`sorted(masks, key=(lambda x: x["area"]), reverse=True)`. -/
def areaGE {H W : ℕ} (a b : Mask H W) : Prop := b.area ≤ a.area

instance {H W : ℕ} : DecidableRel (areaGE (H := H) (W := W)) :=
  fun a b => Nat.decLe _ _

instance {H W : ℕ} : IsTotal (Mask H W) areaGE :=
  ⟨fun a b => Nat.le_total b.area a.area⟩

instance {H W : ℕ} : IsTrans (Mask H W) areaGE :=
  ⟨fun _ _ _ hab hbc => Nat.le_trans hbc hab⟩

/-- Line 187: `sorted_anns = sorted(masks, key=(lambda x: x["area"]), reverse=True)`.
Python's `sorted` is a stable sort; with `reverse=True` it orders by area
descending while keeping the input order of equal-area elements.  A stable
sort for a total preorder is unique, so it is embedded as insertion sort
with the relation `b.area ≤ a.area` (which is stable and sorted). -/
def sortedAnns {H W : ℕ} (masks : List (Mask H W)) : List (Mask H W) :=
  List.insertionSort areaGE masks

/-- Lines 192–193: `for i, mask in enumerate(sorted_anns): mask_img[mask["segmentation"]] = i + 1`.
`k` is the identifier written for the head of the remaining list (the loop
starts with `k = 1`), `g` is the array painted so far. -/
def paintFrom {H W : ℕ} (g : Grid H W) (k : ℕ) : List (Mask H W) → Grid H W
  | [] => g
  | m :: rest =>
      paintFrom (fun p => if m.segmentation p then k else g p) (k + 1) rest

/-- Lines 185–194, `create_mask_arr`.  `sorted_anns[0]` raises `IndexError`
when the candidate list is empty; otherwise an all-zero array of the slice
shape is painted mask by mask in sorted order. -/
def create_mask_arr {H W : ℕ} (masks : List (Mask H W)) :
    Except Err (Grid H W) :=
  let sorted_anns := sortedAnns masks
  if sorted_anns.isEmpty then .error .indexError
  else .ok (paintFrom (zeroGrid H W) 1 sorted_anns)

/-- The label array `create_mask_arr` produces on a non-empty candidate list. -/
def rasterOf {H W : ℕ} (masks : List (Mask H W)) : Grid H W :=
  paintFrom (zeroGrid H W) 1 (sortedAnns masks)

/-- Index of the last mask in the list covering pixel `p`, if any: the
painting loop leaves exactly this mask's identifier on `p`. -/
def lastCoverIdx {H W : ℕ} : List (Mask H W) → Pix H W → Option ℕ
  | [], _ => none
  | m :: rest, p =>
      match lastCoverIdx rest p with
      | some i => some (i + 1)
      | none => if m.segmentation p then some 0 else none

theorem paintFrom_apply {H W : ℕ} (l : List (Mask H W)) :
    ∀ (g : Grid H W) (k : ℕ) (p : Pix H W),
      paintFrom g k l p =
        match lastCoverIdx l p with
        | some i => k + i
        | none => g p := by
  induction l with
  | nil => intro g k p; rfl
  | cons m rest ih =>
      intro g k p
      simp only [paintFrom, lastCoverIdx]
      rw [ih]
      cases h : lastCoverIdx rest p with
      | some i => simp only [h]; ring
      | none =>
          simp only [h]
          by_cases hm : m.segmentation p <;> simp [hm]

theorem lastCoverIdx_isSome {H W : ℕ} (l : List (Mask H W)) (p : Pix H W) :
    (∃ m ∈ l, m.segmentation p = true) ↔ (lastCoverIdx l p).isSome := by
  induction l with
  | nil => simp [lastCoverIdx]
  | cons m rest ih =>
      simp only [lastCoverIdx, List.mem_cons]
      cases h : lastCoverIdx rest p with
      | some i =>
          simp only [Option.isSome_some, iff_true]
          have : (lastCoverIdx rest p).isSome := by simp [h]
          obtain ⟨m', hm', hc⟩ := ih.2 this
          exact ⟨m', Or.inr hm', hc⟩
      | none =>
          constructor
          · rintro ⟨m', hm' | hm', hc⟩
            · subst hm'; simp [hc]
            · exact absurd (ih.1 ⟨m', hm', hc⟩) (by simp [h])
          · intro hs
            by_cases hm : m.segmentation p
            · exact ⟨m, Or.inl rfl, hm⟩
            · simp [hm] at hs

theorem lastCoverIdx_spec {H W : ℕ} (l : List (Mask H W)) (p : Pix H W)
    (i : ℕ) (h : lastCoverIdx l p = some i) :
    ∃ hi : i < l.length,
      (l.get ⟨i, hi⟩).segmentation p = true ∧
      ∀ j (hj : j < l.length), i < j → (l.get ⟨j, hj⟩).segmentation p = false := by
  induction l generalizing i with
  | nil => simp [lastCoverIdx] at h
  | cons m rest ih =>
      simp only [lastCoverIdx] at h
      cases hr : lastCoverIdx rest p with
      | some i' =>
          rw [hr] at h
          injection h with h
          obtain ⟨hi', hc, hlast⟩ := ih i' hr
          subst h
          refine ⟨by simpa using Nat.succ_lt_succ hi', by simpa using hc, ?_⟩
          intro j hj hij
          cases j with
          | zero => omega
          | succ j' =>
              have hj' : j' < rest.length := by simpa using hj
              simpa using hlast j' hj' (by omega)
      | none =>
          rw [hr] at h
          by_cases hm : m.segmentation p
          · simp only [hm, if_true] at h
            injection h with h
            subst h
            refine ⟨by simp, by simpa using hm, ?_⟩
            intro j hj hij
            cases j with
            | zero => omega
            | succ j' =>
                have hj' : j' < rest.length := by simpa using hj
                by_contra hc
                have : (∃ m' ∈ rest, m'.segmentation p = true) := by
                  refine ⟨rest.get ⟨j', hj'⟩, List.get_mem rest j' hj', ?_⟩
                  simpa using hc
                have := (lastCoverIdx_isSome rest p).1 this
                simp [hr] at this
          · simp [hm] at h

theorem sortedAnns_perm {H W : ℕ} (masks : List (Mask H W)) :
    (sortedAnns masks).Perm masks :=
  List.perm_insertionSort areaGE masks

theorem sortedAnns_pairwise {H W : ℕ} (masks : List (Mask H W)) :
    (sortedAnns masks).Pairwise (fun a b => b.area ≤ a.area) :=
  List.sorted_insertionSort areaGE masks

theorem sortedAnns_stable {H W : ℕ} (masks : List (Mask H W))
    (a b : Mask H W) (hab : a.area = b.area)
    (hsub : [a, b].Sublist masks) : [a, b].Sublist (sortedAnns masks) :=
  List.pair_sublist_insertionSort (le_of_eq hab.symm) hsub

theorem mem_sortedAnns {H W : ℕ} {masks : List (Mask H W)} {m : Mask H W} :
    m ∈ sortedAnns masks ↔ m ∈ masks :=
  (sortedAnns_perm masks).mem_iff

theorem create_mask_arr_eq_ok {H W : ℕ} (masks : List (Mask H W))
    (hne : masks ≠ []) : create_mask_arr masks = .ok (rasterOf masks) := by
  have hlen : (sortedAnns masks).length = masks.length :=
    (sortedAnns_perm masks).length_eq
  have hse : ¬ (sortedAnns masks).isEmpty := by
    simp only [List.isEmpty_iff_length_eq_zero, hlen]
    simpa [List.length_eq_zero] using hne
  simp [create_mask_arr, rasterOf, hse]

/-- C1: `create_mask_arr` sorts the candidates by area descending (Python's
stable `sorted` keeps equal-area candidates in generator output order),
assigns identifier `i+1` to the `i`-th candidate of that order, and paints
in that order, so an uncovered pixel stays 0 and a pixel covered by one or
more candidates carries the identifier of a covering candidate of minimal
area (the last covering candidate in the sorted order). -/
theorem create_mask_arr_sorted_overlap {H W : ℕ}
    (masks : List (Mask H W)) (hne : masks ≠ []) :
    ∃ g, create_mask_arr masks = .ok g ∧
      (sortedAnns masks).Perm masks ∧
      (sortedAnns masks).Pairwise (fun a b => b.area ≤ a.area) ∧
      (∀ a b : Mask H W, a.area = b.area →
        [a, b].Sublist masks → [a, b].Sublist (sortedAnns masks)) ∧
      (∀ p : Pix H W, (∀ m ∈ masks, m.segmentation p = false) → g p = 0) ∧
      (∀ p : Pix H W, ∀ m ∈ masks, m.segmentation p = true →
        ∃ i, ∃ hi : i < (sortedAnns masks).length,
          g p = i + 1 ∧
          ((sortedAnns masks).get ⟨i, hi⟩).segmentation p = true ∧
          (∀ j (hj : j < (sortedAnns masks).length), i < j →
            ((sortedAnns masks).get ⟨j, hj⟩).segmentation p = false) ∧
          ∀ m' ∈ masks, m'.segmentation p = true →
            ((sortedAnns masks).get ⟨i, hi⟩).area ≤ m'.area) := by
  refine ⟨rasterOf masks, create_mask_arr_eq_ok masks hne,
    sortedAnns_perm masks, sortedAnns_pairwise masks,
    sortedAnns_stable masks, ?_, ?_⟩
  · intro p hnone
    have hnot : ¬ ∃ m ∈ sortedAnns masks, m.segmentation p = true := by
      rintro ⟨m, hm, hc⟩
      exact absurd hc (by simp [hnone m (mem_sortedAnns.1 hm)])
    have : lastCoverIdx (sortedAnns masks) p = none := by
      cases h : lastCoverIdx (sortedAnns masks) p with
      | none => rfl
      | some i =>
          exact absurd ((lastCoverIdx_isSome _ p).2 (by simp [h])) hnot
    simp [rasterOf, paintFrom_apply, this, zeroGrid]
  · intro p m hm hc
    have hsome : (lastCoverIdx (sortedAnns masks) p).isSome :=
      (lastCoverIdx_isSome _ p).1 ⟨m, mem_sortedAnns.2 hm, hc⟩
    obtain ⟨i, hi⟩ := Option.isSome_iff_exists.1 hsome
    obtain ⟨hilt, hcov, hlast⟩ := lastCoverIdx_spec _ p i hi
    refine ⟨i, hilt, ?_, hcov, hlast, ?_⟩
    · simp [rasterOf, paintFrom_apply, hi]; ring
    · intro m' hm' hc'
      obtain ⟨⟨j, hj⟩, hget⟩ := List.mem_iff_get.1 (mem_sortedAnns.2 hm')
      rcases lt_trichotomy i j with hij | hij | hij
      · exact absurd (hget ▸ hlast j hj hij) (by simp [hc'])
      · subst hij
        exact le_of_eq (by rw [hget])
      · have := (List.pairwise_iff_get.1 (sortedAnns_pairwise masks))
          ⟨j, hj⟩ ⟨i, hilt⟩ hij
        exact hget ▸ this

/-- Concrete candidate masks on a 1×2 slice, used by witnesses: one
full-frame mask of area 2 and one left-pixel mask of area 1. -/
def w1Mask1 : Mask 1 2 := ⟨fun _ => true, 2⟩

def w1Mask2 : Mask 1 2 := ⟨fun p => decide (p.2 = 0), 1⟩

def w1Masks : List (Mask 1 2) := [w1Mask1, w1Mask2]

/-- Witness for C1 at the concrete two-candidate input. -/
theorem create_mask_arr_sorted_overlap_witness :
    w1Masks ≠ [] ∧
    (∃ g, create_mask_arr w1Masks = .ok g ∧
      (sortedAnns w1Masks).Perm w1Masks ∧
      (sortedAnns w1Masks).Pairwise (fun a b => b.area ≤ a.area) ∧
      (∀ a b : Mask 1 2, a.area = b.area →
        [a, b].Sublist w1Masks → [a, b].Sublist (sortedAnns w1Masks)) ∧
      (∀ p : Pix 1 2, (∀ m ∈ w1Masks, m.segmentation p = false) → g p = 0) ∧
      (∀ p : Pix 1 2, ∀ m ∈ w1Masks, m.segmentation p = true →
        ∃ i, ∃ hi : i < (sortedAnns w1Masks).length,
          g p = i + 1 ∧
          ((sortedAnns w1Masks).get ⟨i, hi⟩).segmentation p = true ∧
          (∀ j (hj : j < (sortedAnns w1Masks).length), i < j →
            ((sortedAnns w1Masks).get ⟨j, hj⟩).segmentation p = false) ∧
          ∀ m' ∈ w1Masks, m'.segmentation p = true →
            ((sortedAnns w1Masks).get ⟨i, hi⟩).area ≤ m'.area)) :=
  ⟨by decide, create_mask_arr_sorted_overlap w1Masks (by decide)⟩

/-- C8 counterexample: on the empty candidate list `create_mask_arr` raises
Python's built-in `IndexError` (from `sorted_anns[0]`), which is not the
`EmptyInputError` named by the specification (no such class exists in the
repository). -/
theorem create_mask_arr_empty_not_emptyInputError :
    create_mask_arr ([] : List (Mask 1 1)) = .error .indexError ∧
    Err.indexError ≠ Err.emptyInputError := by
  constructor
  · rfl
  · decide

/-- C8 (amended): `create_mask_arr` fails exactly on the empty candidate
list, raising `IndexError` (not `EmptyInputError`); on every non-empty list
it returns a label array without raising. -/
theorem create_mask_arr_raises_iff_empty {H W : ℕ}
    (masks : List (Mask H W)) :
    (create_mask_arr masks = .error .indexError ↔ masks = []) ∧
    (masks ≠ [] → create_mask_arr masks = .ok (rasterOf masks)) := by
  constructor
  · constructor
    · intro h
      by_contra hne
      rw [create_mask_arr_eq_ok masks hne] at h
      exact Except.noConfusion h
    · intro h
      subst h
      rfl
  · exact create_mask_arr_eq_ok masks

/-- Witness for C8's amended theorem at a concrete non-empty input. -/
theorem create_mask_arr_raises_iff_empty_witness :
    ((create_mask_arr [w1Mask1] = .error .indexError ↔ [w1Mask1] = []) ∧
      ([w1Mask1] ≠ [] → create_mask_arr [w1Mask1] = .ok (rasterOf [w1Mask1]))) ∧
    create_mask_arr [w1Mask1] = .ok (rasterOf [w1Mask1]) :=
  ⟨create_mask_arr_raises_iff_empty [w1Mask1],
    (create_mask_arr_raises_iff_empty [w1Mask1]).2 (by decide)⟩

/-- All pixel positions of an `H × W` slice in row-major order (the order in
which numpy flattens a 2D array). -/
def pixList (H W : ℕ) : List (Pix H W) :=
  (List.finRange H).bind fun i => (List.finRange W).map fun j => (i, j)

theorem mem_pixList {H W : ℕ} (p : Pix H W) : p ∈ pixList H W := by
  rcases p with ⟨i, j⟩
  simp only [pixList, List.mem_bind, List.mem_map]
  exact ⟨i, List.mem_finRange i, j, List.mem_finRange j, rfl⟩

/-- Sorted list of the distinct values of `l`, ascending: the embedding of
`np.unique` (without counts). -/
def uniqueAsc (l : List ℕ) : List ℕ :=
  (List.insertionSort (· ≤ ·) l).dedup

theorem mem_uniqueAsc {l : List ℕ} {a : ℕ} : a ∈ uniqueAsc l ↔ a ∈ l := by
  simp [uniqueAsc, List.mem_dedup, List.mem_insertionSort]

theorem nodup_uniqueAsc (l : List ℕ) : (uniqueAsc l).Nodup :=
  List.nodup_dedup _

theorem nodup_all_eq_singleton {l : List ℕ} {a : ℕ} (hnd : l.Nodup)
    (ha : a ∈ l) (hall : ∀ x ∈ l, x = a) : l = [a] := by
  cases l with
  | nil => simp at ha
  | cons x xs =>
      have hx : x = a := hall x (by simp)
      subst hx
      cases xs with
      | nil => rfl
      | cons y ys =>
          have hy : y = x := hall y (by simp)
          subst hy
          simp at hnd

theorem uniqueAsc_all_eq {l : List ℕ} {a : ℕ} (hne : l ≠ [])
    (hall : ∀ x ∈ l, x = a) : uniqueAsc l = [a] := by
  refine nodup_all_eq_singleton (nodup_uniqueAsc l) ?_ ?_
  · cases l with
    | nil => exact absurd rfl hne
    | cons x xs =>
        have : x = a := hall x (by simp)
        subst this
        exact mem_uniqueAsc.2 (by simp)
  · intro x hx
    exact hall x (mem_uniqueAsc.1 hx)

theorem le_foldr_max {l : List ℕ} {x : ℕ} (hx : x ∈ l) :
    x ≤ l.foldr max 0 := by
  induction l with
  | nil => simp at hx
  | cons y ys ih =>
      rcases List.mem_cons.1 hx with h | h
      · subst h; exact Nat.le_max_left _ _
      · exact Nat.le_trans (ih h) (Nat.le_max_right _ _)

theorem foldr_max_mem {l : List ℕ} (hne : l ≠ []) : l.foldr max 0 ∈ l := by
  induction l with
  | nil => exact absurd rfl hne
  | cons y ys ih =>
      cases ys with
      | nil => simp
      | cons z zs =>
          rcases max_choice y ((z :: zs).foldr max 0) with h | h
          · rw [List.foldr_cons, h]; simp
          · rw [List.foldr_cons, h]
            exact List.mem_cons_of_mem _ (ih (by simp))

/-- Lines 124–128: `np.unique(next_slice, return_counts=True)` followed by
filtering out label 0 — the distinct non-zero values of the slice,
ascending (numpy returns unique values sorted). -/
def nzLabels {H W : ℕ} (g : Grid H W) : List ℕ :=
  (uniqueAsc ((pixList H W).map g)).filter (fun L => decide (L ≠ 0))

theorem mem_nzLabels {H W : ℕ} {g : Grid H W} {L : ℕ} :
    L ∈ nzLabels g ↔ L ≠ 0 ∧ ∃ p, g p = L := by
  simp only [nzLabels, List.mem_filter, mem_uniqueAsc, List.mem_map,
    decide_eq_true_eq]
  constructor
  · rintro ⟨⟨p, _, hp⟩, hL⟩
    exact ⟨hL, p, hp⟩
  · rintro ⟨hL, p, hp⟩
    exact ⟨⟨p, mem_pixList p, hp⟩, hL⟩

theorem nzLabels_eq_nil {H W : ℕ} {g : Grid H W} :
    nzLabels g = [] ↔ ∀ p, g p = 0 := by
  constructor
  · intro h p
    by_contra hp
    have : g p ∈ nzLabels g := mem_nzLabels.2 ⟨hp, p, rfl⟩
    simp [h] at this
  · intro h
    cases hl : nzLabels g with
    | nil => rfl
    | cons L rest =>
        have : L ∈ nzLabels g := by simp [hl]
        obtain ⟨hL, p, hp⟩ := mem_nzLabels.1 this
        exact absurd (hp ▸ h p) hL

/-- Pixel count of value `L` in `g`: the entry of `return_counts` that
`np.unique` pairs with `L` (`next_label_count` in the code). -/
def labelCount {H W : ℕ} (g : Grid H W) (L : ℕ) : ℕ :=
  ((pixList H W).map g).count L

theorem labelCount_pos {H W : ℕ} {g : Grid H W} {L : ℕ} {p : Pix H W}
    (hp : g p = L) : 0 < labelCount g L := by
  rw [labelCount, List.count_pos_iff]
  exact List.mem_map.2 ⟨p, mem_pixList p, hp⟩

/-- Line 134: `current_roi_labels = current_slice[next_slice == next_label]`
— the values of `previous` at the pixels of `current`'s label `L`. -/
def roiVals {H W : ℕ} (prev curr : Grid H W) (L : ℕ) : List ℕ :=
  ((pixList H W).filter (fun p => decide (curr p = L))).map prev

/-- Lines 135–143: `np.unique` of the roi values with counts, keeping only
the non-zero labels (ascending). -/
def roiLabels {H W : ℕ} (prev curr : Grid H W) (L : ℕ) : List ℕ :=
  (uniqueAsc (roiVals prev curr L)).filter (fun L' => decide (L' ≠ 0))

/-- The count `np.unique` pairs with roi value `L'`: the number of pixels
with `current == L` and `previous == L'`. -/
def roiCount {H W : ℕ} (prev curr : Grid H W) (L L' : ℕ) : ℕ :=
  (roiVals prev curr L).count L'

theorem mem_roiLabels {H W : ℕ} {prev curr : Grid H W} {L L' : ℕ} :
    L' ∈ roiLabels prev curr L ↔
      L' ≠ 0 ∧ ∃ p, curr p = L ∧ prev p = L' := by
  simp only [roiLabels, roiVals, List.mem_filter, mem_uniqueAsc,
    List.mem_map, List.mem_filter, decide_eq_true_eq]
  constructor
  · rintro ⟨⟨p, ⟨_, hc⟩, hp⟩, hL⟩
    exact ⟨hL, p, hc, hp⟩
  · rintro ⟨hL, p, hc, hp⟩
    exact ⟨⟨p, ⟨mem_pixList p, hc⟩, hp⟩, hL⟩

/-- Line 145: `current_max_count = np.max(current_roi_label_counts)`. -/
def maxRoiCount {H W : ℕ} (prev curr : Grid H W) (L : ℕ) : ℕ :=
  ((roiLabels prev curr L).map (roiCount prev curr L)).foldr max 0

/-- Lines 146–148: `current_roi_labels[np.argmax(current_roi_label_counts)]`.
`np.argmax` returns the first maximising index and the labels are ascending,
so this is the smallest non-zero roi label attaining the maximal count. -/
def bestPrev {H W : ℕ} (prev curr : Grid H W) (L : ℕ) : ℕ :=
  ((roiLabels prev curr L).find?
    (fun L' => decide (roiCount prev curr L L' = maxRoiCount prev curr L))).getD 0

theorem roiCount_le_maxRoiCount {H W : ℕ} {prev curr : Grid H W} {L L' : ℕ}
    (h : L' ∈ roiLabels prev curr L) :
    roiCount prev curr L L' ≤ maxRoiCount prev curr L :=
  le_foldr_max (List.mem_map.2 ⟨L', h, rfl⟩)

theorem bestPrev_spec {H W : ℕ} {prev curr : Grid H W} {L : ℕ}
    (hne : roiLabels prev curr L ≠ []) :
    bestPrev prev curr L ∈ roiLabels prev curr L ∧
    roiCount prev curr L (bestPrev prev curr L) = maxRoiCount prev curr L := by
  have hmem : maxRoiCount prev curr L ∈
      (roiLabels prev curr L).map (roiCount prev curr L) :=
    foldr_max_mem (by simpa using hne)
  obtain ⟨L', hL', hc⟩ := List.mem_map.1 hmem
  have hfind : ((roiLabels prev curr L).find?
      (fun x => decide (roiCount prev curr L x = maxRoiCount prev curr L))).isSome := by
    rw [List.find?_isSome]
    exact ⟨L', hL', by simpa using hc⟩
  obtain ⟨b, hb⟩ := Option.isSome_iff_exists.1 hfind
  have hbmem := List.mem_of_find?_eq_some hb
  have hbp := List.find?_some hb
  simp only [decide_eq_true_eq] at hbp
  simp [bestPrev, hb, hbmem, hbp]

/-- The value written over the region `current == L` by one iteration of the
inner loop (lines 131–157): the dominant previous label when the overlap
ratio `current_max_count / next_label_count` reaches the threshold,
otherwise `L` itself; also `L` when no non-zero previous label lies under
the region (lines 156–157). -/
def newLabelFor {H W : ℕ} (prev curr : Grid H W) (t : ℚ) (L : ℕ) : ℕ :=
  if roiLabels prev curr L ≠ [] then
    if (maxRoiCount prev curr L : ℚ) / (labelCount curr L : ℚ) ≥ t then
      bestPrev prev curr L
    else L
  else L

/-- Lines 120–158 for one `previous`/`current` pair (the body of
`align_segment_labels`'s outer loop): starting from `np.zeros_like`, the
region of each non-zero label of `current` is written in `np.unique`
(ascending) order; when `current` has no non-zero label the slice is kept
(the code skips the assignment of line 158, and the fold's result would not
be written back). -/
def align_pair {H W : ℕ} (prev curr : Grid H W) (t : ℚ) : Grid H W :=
  if nzLabels curr = [] then curr
  else
    (nzLabels curr).foldl
      (fun g L => fun p => if curr p = L then newLabelFor prev curr t L else g p)
      (zeroGrid H W)

theorem align_pair_foldl {H W : ℕ} (prev curr : Grid H W) (t : ℚ)
    (l : List ℕ) : ∀ (g0 : Grid H W) (p : Pix H W),
    (l.foldl
      (fun g L => fun p => if curr p = L then newLabelFor prev curr t L else g p)
      g0) p =
      if curr p ∈ l then newLabelFor prev curr t (curr p) else g0 p := by
  induction l with
  | nil => intro g0 p; simp
  | cons L rest ih =>
      intro g0 p
      simp only [List.foldl_cons, List.mem_cons]
      rw [ih]
      by_cases hmem : curr p ∈ rest
      · simp [hmem]
      · by_cases hL : curr p = L
        · simp [hmem, hL]
        · simp [hmem, hL]

/-- Pixelwise description of `align_pair`: background pixels stay 0 and the
pixels of a non-zero label `L` all receive `newLabelFor L`. -/
theorem align_pair_apply {H W : ℕ} (prev curr : Grid H W) (t : ℚ)
    (p : Pix H W) :
    align_pair prev curr t p =
      if curr p = 0 then 0 else newLabelFor prev curr t (curr p) := by
  rw [align_pair]
  by_cases hnil : nzLabels curr = []
  · have hz := nzLabels_eq_nil.1 hnil p
    simp [hnil, hz]
  · rw [if_neg hnil, align_pair_foldl]
    by_cases h0 : curr p = 0
    · have hnot : curr p ∉ nzLabels curr := by
        intro hmem
        exact (mem_nzLabels.1 hmem).1 h0
      rw [if_neg hnot, if_pos h0]
      rfl
    · have : curr p ∈ nzLabels curr := mem_nzLabels.2 ⟨h0, p, rfl⟩
      simp [this, h0]

theorem count_map_eq_length_filter {α : Type} (f : α → ℕ) (lst : List α)
    (a : ℕ) :
    ((lst.map f).count a) = (lst.filter (fun x => decide (f x = a))).length := by
  induction lst with
  | nil => rfl
  | cons x xs ih =>
      by_cases h : f x = a <;>
        simp [List.count_cons, ih, h, Nat.add_comm]

theorem roiLabels_ne_nil {H W : ℕ} {prev curr : Grid H W} {L : ℕ}
    (hover : ∃ p, curr p = L ∧ prev p ≠ 0) :
    roiLabels prev curr L ≠ [] := by
  obtain ⟨p, hc, hnz⟩ := hover
  exact List.ne_nil_of_mem (mem_roiLabels.2 ⟨hnz, p, hc, rfl⟩)

/-- C9: aligning a label array against itself leaves it unchanged for every
threshold at most 1. -/
theorem align_pair_self {H W : ℕ} (P : Grid H W) (t : ℚ) (ht : t ≤ 1) :
    align_pair P P t = P := by
  funext p
  rw [align_pair_apply]
  by_cases h0 : P p = 0
  · simp [h0]
  · rw [if_neg h0]
    have hmemf : p ∈ (pixList H W).filter (fun q => decide (P q = P p)) :=
      List.mem_filter.2 ⟨mem_pixList p, by simp⟩
    have hne : roiVals P P (P p) ≠ [] := by
      simp only [roiVals, ne_eq, List.map_eq_nil_iff]
      exact List.ne_nil_of_mem hmemf
    have hall : ∀ x ∈ roiVals P P (P p), x = P p := by
      intro x hx
      obtain ⟨q, hq, hqx⟩ := List.mem_map.1 hx
      have : P q = P p := by simpa using (List.mem_filter.1 hq).2
      omega
    have huniq : uniqueAsc (roiVals P P (P p)) = [P p] :=
      uniqueAsc_all_eq hne hall
    have hroiL : roiLabels P P (P p) = [P p] := by
      simp [roiLabels, huniq, h0]
    have hcount : roiCount P P (P p) (P p) = labelCount P (P p) := by
      simp only [roiCount, roiVals, labelCount,
        count_map_eq_length_filter, List.filter_filter, Bool.and_self]
    have hmax : maxRoiCount P P (P p) = labelCount P (P p) := by
      simp [maxRoiCount, hroiL, hcount]
    have hbest : bestPrev P P (P p) = P p := by
      rw [bestPrev, hroiL, List.find?_cons_of_pos _ (by simp [hcount, hmax])]
      rfl
    have hpos : 0 < labelCount P (P p) := labelCount_pos rfl
    have hratio : (maxRoiCount P P (P p) : ℚ) / (labelCount P (P p) : ℚ) = 1 := by
      rw [hmax]
      exact div_self (by exact_mod_cast Nat.pos_iff_ne_zero.1 hpos)
    rw [newLabelFor, if_pos (by simp [hroiL]), if_pos (by rw [hratio]; exact ht),
      hbest]

/-- Witness for C9 at a concrete slice and threshold 1/2. -/
theorem align_pair_self_witness :
    ((1 : ℚ) / 2 ≤ 1) ∧
    align_pair (fun p : Pix 1 2 => if p.2 = 0 then 5 else 0)
      (fun p : Pix 1 2 => if p.2 = 0 then 5 else 0) (1 / 2) =
      (fun p : Pix 1 2 => if p.2 = 0 then 5 else 0) :=
  ⟨by norm_num,
    align_pair_self (fun p : Pix 1 2 => if p.2 = 0 then 5 else 0) (1 / 2)
      (by norm_num)⟩

/-- C3: for a current label `L` with some non-zero previous value under it,
`bestPrev` is an actually-occurring non-zero previous value of maximal
overlap count, and the pixels of `L` are all relabelled to it exactly when
`overlap_count / labelCount ≥ threshold` (in particular at exact equality),
and all keep the value `L` when the ratio is below the threshold. -/
theorem align_pair_threshold {H W : ℕ} (prev curr : Grid H W) (t : ℚ)
    (L : ℕ) (hL : L ≠ 0) (hover : ∃ p, curr p = L ∧ prev p ≠ 0) :
    (bestPrev prev curr L ≠ 0 ∧
      ∃ p, curr p = L ∧ prev p = bestPrev prev curr L) ∧
    (∀ L', L' ≠ 0 → (∃ p, curr p = L ∧ prev p = L') →
      roiCount prev curr L L' ≤ roiCount prev curr L (bestPrev prev curr L)) ∧
    ((roiCount prev curr L (bestPrev prev curr L) : ℚ) /
        (labelCount curr L : ℚ) ≥ t →
      ∀ p, curr p = L → align_pair prev curr t p = bestPrev prev curr L) ∧
    ((roiCount prev curr L (bestPrev prev curr L) : ℚ) /
        (labelCount curr L : ℚ) < t →
      ∀ p, curr p = L → align_pair prev curr t p = L) := by
  have hne := roiLabels_ne_nil hover
  obtain ⟨hBmem, hBc⟩ := bestPrev_spec hne
  obtain ⟨hB0, hBex⟩ := mem_roiLabels.1 hBmem
  refine ⟨⟨hB0, hBex⟩, ?_, ?_, ?_⟩
  · intro L' hL0 hex
    rw [hBc]
    exact roiCount_le_maxRoiCount (mem_roiLabels.2 ⟨hL0, hex⟩)
  · intro hratio p hp
    rw [align_pair_apply, if_neg (by rw [hp]; exact hL), hp, newLabelFor,
      if_pos hne, if_pos (by rw [← hBc]; exact hratio)]
  · intro hratio p hp
    rw [align_pair_apply, if_neg (by rw [hp]; exact hL), hp, newLabelFor,
      if_pos hne, if_neg (by rw [← hBc]; exact not_le.2 hratio)]

/-- Concrete slices on a 1×2 grid used by the alignment witnesses. -/
def wPrev : Grid 1 2 := fun p => if p.2 = 0 then 3 else 0

def wCurr : Grid 1 2 := fun p => if p.2 = 0 then 5 else 0

/-- Witness for C3 at a concrete previous/current pair. -/
theorem align_pair_threshold_witness :
    ((5 : ℕ) ≠ 0 ∧ (∃ p, wCurr p = 5 ∧ wPrev p ≠ 0)) ∧
    ((bestPrev wPrev wCurr 5 ≠ 0 ∧
      ∃ p, wCurr p = 5 ∧ wPrev p = bestPrev wPrev wCurr 5) ∧
    (∀ L', L' ≠ 0 → (∃ p, wCurr p = 5 ∧ wPrev p = L') →
      roiCount wPrev wCurr 5 L' ≤ roiCount wPrev wCurr 5 (bestPrev wPrev wCurr 5)) ∧
    ((roiCount wPrev wCurr 5 (bestPrev wPrev wCurr 5) : ℚ) /
        (labelCount wCurr 5 : ℚ) ≥ (1 : ℚ) / 2 →
      ∀ p, wCurr p = 5 → align_pair wPrev wCurr ((1 : ℚ) / 2) p = bestPrev wPrev wCurr 5) ∧
    ((roiCount wPrev wCurr 5 (bestPrev wPrev wCurr 5) : ℚ) /
        (labelCount wCurr 5 : ℚ) < (1 : ℚ) / 2 →
      ∀ p, wCurr p = 5 → align_pair wPrev wCurr ((1 : ℚ) / 2) p = 5)) :=
  ⟨⟨by decide, by decide⟩,
    align_pair_threshold wPrev wCurr ((1 : ℚ) / 2) 5 (by decide) (by decide)⟩

/-- C10: alignment never splits an object: two pixels carrying the same
non-zero identifier in `current` carry equal identifiers in the output
(the output has the same `H × W` shape by the type of `align_pair`). -/
theorem align_pair_no_split {H W : ℕ} (prev curr : Grid H W) (t : ℚ)
    (p q : Pix H W) (heq : curr p = curr q) (hnz : curr p ≠ 0) :
    align_pair prev curr t p = align_pair prev curr t q := by
  rw [align_pair_apply, align_pair_apply, heq]

/-- Witness for C10 at a concrete pair of pixels of one object. -/
theorem align_pair_no_split_witness :
    ((fun _ : Pix 1 2 => 4) (0, 0) = (fun _ : Pix 1 2 => 4) (0, 1) ∧
      (fun _ : Pix 1 2 => 4) (0, 0) ≠ 0) ∧
    align_pair wPrev (fun _ : Pix 1 2 => 4) (1 / 2) (0, 0) =
      align_pair wPrev (fun _ : Pix 1 2 => 4) (1 / 2) (0, 1) :=
  ⟨⟨by decide, by decide⟩,
    align_pair_no_split wPrev (fun _ : Pix 1 2 => 4) (1 / 2) (0, 0) (0, 1)
      (by decide) (by decide)⟩

/-- Lines 162–182, `normalize_slice`, for given source and target limits.
The `None` defaults of lines 164–168 (whole-slice min/max, `(0, 1)`) are
resolved before the guarded branch and every call site in the repository
passes both limits, so the limits are taken as given.  Real arithmetic is
embedded as exact rational arithmetic. -/
def normalize_slice {H W : ℕ} (img_slice : QGrid H W)
    (source_limits target_limits : ℚ × ℚ) : QGrid H W :=
  if source_limits.1 = source_limits.2 ∨
      target_limits.1 = target_limits.2 then
    fun p => img_slice p * 0
  else
    fun p =>
      let x_std := (img_slice p - source_limits.1) /
        (source_limits.2 - source_limits.1)
      x_std * (target_limits.2 - target_limits.1) + target_limits.1

/-- C7: a zero-width source or target range yields the all-zero slice of
the same shape (no exception is possible: the function is total), and
otherwise the result is the elementwise linear rescale. -/
theorem normalize_slice_spec {H W : ℕ} (img : QGrid H W) (a b c d : ℚ) :
    (a = b ∨ c = d → normalize_slice img (a, b) (c, d) = fun _ => 0) ∧
    (¬(a = b ∨ c = d) →
      normalize_slice img (a, b) (c, d) =
        fun p => (img p - a) / (b - a) * (d - c) + c) := by
  constructor
  · intro h
    funext p
    simp [normalize_slice, h]
  · intro h
    funext p
    simp [normalize_slice, h]

/-- Witness for C7 at the spec's scenario `source_range = (5, 5)`. -/
theorem normalize_slice_spec_witness :
    ((5 : ℚ) = 5 ∨ (0 : ℚ) = 255) ∧
    normalize_slice (fun _ : Pix 1 2 => (7 : ℚ)) (5, 5) (0, 255) =
      fun _ => 0 :=
  ⟨Or.inl rfl,
    (normalize_slice_spec (fun _ : Pix 1 2 => (7 : ℚ)) 5 5 0 255).1
      (Or.inl rfl)⟩

/-- The evolving 3D label volume: one label array per slice. -/
abbrev Vol (H W : ℕ) := List (Grid H W)

instance decEqVol {H W : ℕ} : DecidableEq (Vol H W) :=
  List.hasDecEq

/-- Durable storage under `root_dir / "sam_masks"` for one stack: the
intermediate artifacts `{stem}_masks_{idx}.npy`, keyed by the formatted
(possibly negative) index, and the terminal artifact
`{stem}_masks_all.npy`; each holds the volume snapshot `np.save` wrote. -/
structure FS (H W : ℕ) where
  inter : List (ℤ × Vol H W)
  final : Option (Vol H W)
deriving DecidableEq

def FS.hasInter {H W : ℕ} (fs : FS H W) (i : ℤ) : Bool :=
  (fs.inter.map Prod.fst).contains i

/-- `Path.unlink` on `{stem}_masks_{i}.npy`: raises `FileNotFoundError`
when the file is absent (`missing_ok` defaults to `False` and the code
never passes it, nor wraps the call in any handler). -/
def unlinkInter {H W : ℕ} (fs : FS H W) (i : ℤ) : Except Err (FS H W) :=
  if fs.hasInter i then
    .ok { fs with inter := fs.inter.filter (fun x => decide (x.1 ≠ i)) }
  else .error .fileNotFound

/-- `np.save` to `{stem}_masks_{i}.npy`; `wok` is the environment's verdict
on whether the durable write succeeds.  The code has no handler, so a
raised write error propagates. -/
def saveInter {H W : ℕ} (wok : Bool) (fs : FS H W) (i : ℤ) (v : Vol H W) :
    Except Err (FS H W) :=
  if wok then
    .ok { fs with
      inter := (i, v) :: fs.inter.filter (fun x => decide (x.1 ≠ i)) }
  else .error .writeError

/-- `np.save` to the terminal artifact `{stem}_masks_all.npy`. -/
def saveAll {H W : ℕ} (wok : Bool) (fs : FS H W) (v : Vol H W) :
    Except Err (FS H W) :=
  if wok then .ok { fs with final := some v } else .error .writeError

/-- The primitive filesystem operations `save_masks` performs on the
intermediate artifacts. -/
inductive FsOp (H W : ℕ) where
  | unlink (i : ℤ)
  | save (i : ℤ) (v : Vol H W)
deriving DecidableEq

def applyOp {H W : ℕ} (wok : Bool) (fs : FS H W) :
    FsOp H W → Except Err (FS H W)
  | .unlink i => unlinkInter fs i
  | .save i v => saveInter wok fs i v

def runOps {H W : ℕ} (wok : Bool) :
    FS H W → List (FsOp H W) → Except Err (FS H W)
  | fs, [] => .ok fs
  | fs, op :: rest =>
      match applyOp wok fs op with
      | .ok fs' => runOps wok fs' rest
      | .error e => .error e

/-- The filesystem states passed through while executing a list of
operations in order, starting from the initial state; on an error the
trace stops at the state in which the failing operation was attempted. -/
def statesDuring {H W : ℕ} (wok : Bool) :
    FS H W → List (FsOp H W) → List (FS H W)
  | fs, [] => [fs]
  | fs, op :: rest =>
      fs :: (match applyOp wok fs op with
        | .ok fs' => statesDuring wok fs' rest
        | .error _ => [])

/-- Lines 197–212, `save_masks` with `stack_slice=True` (the intermediate
checkpoint path), as the ordered list of filesystem operations it performs:
the save path is named by `idx`, and when `idx > 0` the artifact for
`idx - 1` is unlinked FIRST (line 207); only afterwards does line 212 run
`np.save`. -/
def save_masks_slice_ops {H W : ℕ} (idx : ℕ) (v : Vol H W) :
    List (FsOp H W) :=
  (if (idx : ℤ) > 0 then [FsOp.unlink ((idx : ℤ) - 1)] else []) ++
    [FsOp.save (idx : ℤ) v]

def save_masks_slice {H W : ℕ} (wok : Bool) (fs : FS H W) (idx : ℕ)
    (v : Vol H W) : Except Err (FS H W) :=
  runOps wok fs (save_masks_slice_ops idx v)

/-- Lines 197–212, `save_masks` with `all=True` (the terminal path): one
`np.save` to `{stem}_masks_all.npy`, with no deletion of anything. -/
def save_masks_all {H W : ℕ} (wok : Bool) (fs : FS H W) (v : Vol H W) :
    Except Err (FS H W) :=
  saveAll wok fs v

/-- C4 counterexample: starting from the durable state holding exactly the
intermediate artifact for slice 0, `save_masks` for slice 1 passes through
the state with ZERO intermediate artifacts: it deletes the old artifact
first and only then writes the new one, the reverse of the claimed order,
so "exactly one intermediate artifact at every point in time" is false. -/
theorem save_masks_delete_before_write :
    statesDuring true (⟨[((0 : ℤ), [zeroGrid 1 1])], none⟩ : FS 1 1)
        (save_masks_slice_ops 1 [zeroGrid 1 1, zeroGrid 1 1]) =
      [⟨[((0 : ℤ), [zeroGrid 1 1])], none⟩,
       ⟨[], none⟩,
       ⟨[((1 : ℤ), [zeroGrid 1 1, zeroGrid 1 1])], none⟩] ∧
    (⟨[], none⟩ : FS 1 1).inter.length ≠ 1 := by
  constructor
  · decide
  · decide

/-- C4 (amended): `save_masks` for slice `idx ≥ 1`, from a durable state
holding exactly the artifact for `idx - 1`, first deletes that artifact
(leaving momentarily zero intermediate artifacts) and then writes the new
one; after it completes, exactly one intermediate artifact exists, named
for `idx`. -/
theorem save_masks_slice_states {H W : ℕ} (idx : ℕ) (hidx : 1 ≤ idx)
    (v w : Vol H W) (fin : Option (Vol H W)) :
    statesDuring true (⟨[((idx : ℤ) - 1, w)], fin⟩ : FS H W)
        (save_masks_slice_ops idx v) =
      [⟨[((idx : ℤ) - 1, w)], fin⟩, ⟨[], fin⟩, ⟨[((idx : ℤ), v)], fin⟩] ∧
    save_masks_slice true (⟨[((idx : ℤ) - 1, w)], fin⟩ : FS H W) idx v =
      .ok ⟨[((idx : ℤ), v)], fin⟩ := by
  have hpos : ((idx : ℤ)) > 0 := by exact_mod_cast hidx
  have hops : save_masks_slice_ops (H := H) (W := W) idx v =
      [FsOp.unlink ((idx : ℤ) - 1), FsOp.save (idx : ℤ) v] := by
    simp [save_masks_slice_ops, hpos]
  have hunlink :
      applyOp (H := H) (W := W) true ⟨[((idx : ℤ) - 1, w)], fin⟩
        (FsOp.unlink ((idx : ℤ) - 1)) = .ok ⟨[], fin⟩ := by
    simp [applyOp, unlinkInter, FS.hasInter]
  have hsave :
      applyOp (H := H) (W := W) true ⟨[], fin⟩
        (FsOp.save (idx : ℤ) v) = .ok ⟨[((idx : ℤ), v)], fin⟩ := by
    simp [applyOp, saveInter]
  constructor
  · rw [hops]
    simp [statesDuring, hunlink, hsave]
  · rw [save_masks_slice, hops]
    simp [runOps, hunlink, hsave]

/-- Witness for C4's amended theorem at slice index 1. -/
theorem save_masks_slice_states_witness :
    (1 ≤ 1) ∧
    (statesDuring true (⟨[((1 : ℤ) - 1, [zeroGrid 1 1])], none⟩ : FS 1 1)
        (save_masks_slice_ops 1 [zeroGrid 1 1, zeroGrid 1 1]) =
      [⟨[((1 : ℤ) - 1, [zeroGrid 1 1])], none⟩, ⟨[], none⟩,
       ⟨[((1 : ℤ), [zeroGrid 1 1, zeroGrid 1 1])], none⟩] ∧
    save_masks_slice true
        (⟨[((1 : ℤ) - 1, [zeroGrid 1 1])], none⟩ : FS 1 1) 1
        [zeroGrid 1 1, zeroGrid 1 1] =
      .ok ⟨[((1 : ℤ), [zeroGrid 1 1, zeroGrid 1 1])], none⟩) :=
  ⟨le_refl 1,
    save_masks_slice_states 1 (le_refl 1) [zeroGrid 1 1, zeroGrid 1 1]
      [zeroGrid 1 1] none⟩

/-- C5 counterexample: when the previous checkpoint artifact is absent, the
deletion inside `save_masks` raises `FileNotFoundError` and the exception
propagates (there is no handler), aborting the checkpoint — the claim says
a failed deletion is logged and swallowed, never propagated. -/
theorem save_masks_missing_delete_propagates :
    save_masks_slice true (⟨[], none⟩ : FS 1 1) 1 [zeroGrid 1 1] =
      .error .fileNotFound := by
  decide

/-- C5 (amended): both failure modes of `save_masks` are fatal and
propagate: a failed deletion of the previous artifact (in particular its
absence) raises `FileNotFoundError` before anything is written, and a
failed durable write raises and propagates unchanged. -/
theorem save_masks_slice_failures {H W : ℕ} (fs : FS H W) (idx : ℕ)
    (v : Vol H W) :
    (1 ≤ idx → fs.hasInter ((idx : ℤ) - 1) = false →
      ∀ wok, save_masks_slice wok fs idx v = .error .fileNotFound) ∧
    (1 ≤ idx → fs.hasInter ((idx : ℤ) - 1) = true →
      save_masks_slice false fs idx v = .error .writeError) ∧
    (idx = 0 → save_masks_slice false fs idx v = .error .writeError) := by
  refine ⟨?_, ?_, ?_⟩
  · intro hidx habs wok
    have hpos : ((idx : ℤ)) > 0 := by exact_mod_cast hidx
    simp [save_masks_slice, save_masks_slice_ops, hpos, runOps, applyOp,
      unlinkInter, habs]
  · intro hidx hpres
    have hpos : ((idx : ℤ)) > 0 := by exact_mod_cast hidx
    simp [save_masks_slice, save_masks_slice_ops, hpos, runOps, applyOp,
      unlinkInter, hpres, saveInter]
  · intro h
    subst h
    simp [save_masks_slice, save_masks_slice_ops, runOps, applyOp,
      saveInter]

/-- Witness for C5's amended theorem: absent previous artifact at index 1. -/
theorem save_masks_slice_failures_witness :
    ((1 ≤ 1) ∧ (⟨[], none⟩ : FS 1 1).hasInter ((1 : ℤ) - 1) = false) ∧
    save_masks_slice true (⟨[], none⟩ : FS 1 1) 1 [zeroGrid 1 1] =
      .error .fileNotFound :=
  ⟨⟨le_refl 1, by decide⟩,
    (save_masks_slice_failures (⟨[], none⟩ : FS 1 1) 1 [zeroGrid 1 1]).1
      (le_refl 1) (by decide) true⟩

/-- Lines 110–159, `align_segment_labels` over the whole volume (default
threshold 0.5 at the call site): for each `i` in `range(len - 1)`, slice
`i + 1` is replaced by its alignment against the already-updated slice
`i`. -/
def align_segment_labels {H W : ℕ} (v : Vol H W) (t : ℚ) : Vol H W :=
  (List.range (v.length - 1)).foldl
    (fun acc i =>
      acc.set (i + 1)
        (align_pair (acc.getD i (zeroGrid H W))
          (acc.getD (i + 1) (zeroGrid H W)) t))
    v

/-- Lines 47–89, `_run_sam_stack`.  The per-slice candidate generation
(channel expansion, `normalize_slice` with the stack-wide contrast limits
from `calc_data_range`, the `astype(np.uint8)` cast and `model.generate`)
is the external model capability, abstracted as `gen` mapping the slice
index to that slice's candidate list; `N` is `img_stack.shape[0]`.  Each
slice is rasterized and stored into the volume; every slice but the last
is checkpointed through `save_masks` (the written snapshot is recorded in
the returned log); for the last slice lines 80–86 directly `unlink` the
penultimate intermediate artifact `{stem}_masks_{idx-1}.npy` (unguarded).
After the loop the volume is aligned once (line 88). -/
def stackLoop {H W : ℕ} (gen : ℕ → List (Mask H W)) (N : ℕ) :
    List ℕ → FS H W → Vol H W → List (ℤ × Vol H W) →
      Except Err (FS H W × List (ℤ × Vol H W) × Vol H W)
  | [], fs, vol, log => .ok (fs, log, vol)
  | idx :: rest, fs, vol, log =>
      match create_mask_arr (gen idx) with
      | .error e => .error e
      | .ok masks =>
          let vol' := vol.set idx masks
          if idx < N - 1 then
            match save_masks_slice true fs idx vol' with
            | .error e => .error e
            | .ok fs' =>
                stackLoop gen N rest fs' vol' (log ++ [((idx : ℤ), vol')])
          else
            match unlinkInter fs ((idx : ℤ) - 1) with
            | .error e => .error e
            | .ok fs' => stackLoop gen N rest fs' vol' log

def _run_sam_stack {H W : ℕ} (gen : ℕ → List (Mask H W)) (N : ℕ)
    (fs : FS H W) :
    Except Err (FS H W × List (ℤ × Vol H W) × Vol H W) :=
  match stackLoop gen N (List.range N) fs
      (List.replicate N (zeroGrid H W)) [] with
  | .error e => .error e
  | .ok (fs', log, vol) => .ok (fs', log, align_segment_labels vol (1 / 2))

/-- The volume state after slices `0..k` have been rasterized and stored:
those slices hold their raw rasterized label arrays, later slices are
still zero-filled. -/
def rawUpTo {H W : ℕ} (gen : ℕ → List (Mask H W)) (N k : ℕ) : Vol H W :=
  (List.range N).map fun i =>
    if i ≤ k then rasterOf (gen i) else zeroGrid H W

theorem length_rawUpTo {H W : ℕ} (gen : ℕ → List (Mask H W)) (N k : ℕ) :
    (rawUpTo gen N k).length = N := by
  simp [rawUpTo]

theorem replicate_set_raster {H W : ℕ} (gen : ℕ → List (Mask H W))
    (N : ℕ) (hN : 0 < N) :
    (List.replicate N (zeroGrid H W)).set 0 (rasterOf (gen 0)) =
      rawUpTo gen N 0 := by
  apply List.ext_getElem
  · simp [rawUpTo]
  · intro i h₁ h₂
    have hiN : i < N := by simpa using h₁
    rw [List.getElem_set]
    simp only [rawUpTo, List.getElem_map, List.getElem_range]
    by_cases hi : i = 0
    · subst hi
      simp
    · have : ¬ i ≤ 0 := by omega
      simp [hi, this, Ne.symm hi]

theorem rawUpTo_set {H W : ℕ} (gen : ℕ → List (Mask H W)) (N k : ℕ)
    (hk1 : 1 ≤ k) (hkN : k < N) :
    (rawUpTo gen N (k - 1)).set k (rasterOf (gen k)) = rawUpTo gen N k := by
  apply List.ext_getElem
  · simp [rawUpTo]
  · intro i h₁ h₂
    have hiN : i < N := by simpa [rawUpTo] using h₁
    rw [List.getElem_set]
    simp only [rawUpTo, List.getElem_map, List.getElem_range]
    by_cases hi : k = i
    · subst hi
      simp
    · have hik : i ≤ k - 1 ↔ i ≤ k := by omega
      by_cases hle : i ≤ k
      · simp [hi, hik.2 hle, hle]
      · have : ¬ i ≤ k - 1 := by omega
        simp [hi, this, hle]

theorem stackLoop_inv {H W : ℕ} (gen : ℕ → List (Mask H W)) (N : ℕ)
    (hgen : ∀ i < N, gen i ≠ []) :
    ∀ d k, k = N - 1 - d → 1 ≤ k →
    ∀ (w : Vol H W) (fin : Option (Vol H W)) (log : List (ℤ × Vol H W)),
      stackLoop gen N (List.range' k (N - k)) ⟨[((k : ℤ) - 1, w)], fin⟩
          (rawUpTo gen N (k - 1)) log =
        .ok (⟨[], fin⟩,
          log ++ (List.range' k (N - 1 - k)).map
            (fun i : ℕ => ((i : ℤ), rawUpTo gen N i)),
          rawUpTo gen N (N - 1)) := by
  intro d
  induction d with
  | zero =>
      intro k hk hk1 w fin log
      have hkN : k < N := by omega
      have hrange : List.range' k (N - k) = [k] := by
        have h1 : N - k = 1 := by omega
        rw [h1, List.range'_one]
      have hvol : (rawUpTo gen N (k - 1)).set k (rasterOf (gen k)) =
          rawUpTo gen N k := rawUpTo_set gen N k hk1 hkN
      have hunl : unlinkInter (⟨[((k : ℤ) - 1, w)], fin⟩ : FS H W)
          ((k : ℤ) - 1) = .ok ⟨[], fin⟩ := by
        simp [unlinkInter, FS.hasInter]
      rw [hrange]
      simp only [stackLoop, create_mask_arr_eq_ok _ (hgen k hkN), hvol]
      rw [if_neg (by omega)]
      simp only [hunl, stackLoop]
      have h0 : N - 1 - k = 0 := by omega
      have hkeq : k = N - 1 := by omega
      simp [h0, hkeq]
  | succ d ih =>
      intro k hk hk1 w fin log
      have hklt : k < N - 1 := by omega
      have hkN : k < N := by omega
      have hrange : List.range' k (N - k) =
          k :: List.range' (k + 1) (N - (k + 1)) := by
        have h1 : N - k = (N - (k + 1)) + 1 := by omega
        rw [h1, List.range'_succ]
      have hvol : (rawUpTo gen N (k - 1)).set k (rasterOf (gen k)) =
          rawUpTo gen N k := rawUpTo_set gen N k hk1 hkN
      have hsave := (save_masks_slice_states (H := H) (W := W) k hk1
        (rawUpTo gen N k) w fin).2
      rw [hrange]
      simp only [stackLoop, create_mask_arr_eq_ok _ (hgen k hkN), hvol]
      rw [if_pos hklt]
      simp only [hsave]
      have hih := ih (k + 1) (by omega) (by omega) (rawUpTo gen N k) fin
        (log ++ [((k : ℤ), rawUpTo gen N k)])
      simp only [Nat.add_sub_cancel, Nat.cast_add, Nat.cast_one,
        add_sub_cancel_right] at hih
      rw [hih]
      have hr2 : List.range' k (N - 1 - k) =
          k :: List.range' (k + 1) (N - 1 - (k + 1)) := by
        have h2 : N - 1 - k = (N - 1 - (k + 1)) + 1 := by omega
        rw [h2, List.range'_succ]
      rw [hr2]
      simp [List.append_assoc]

/-- C2 (amended): for every stack of `N ≥ 2` slices whose generator yields
candidates for every slice, `_run_sam_stack` from an empty checkpoint
directory processes the slices in order as rasterize → store → checkpoint
(slices `0..N-2`; the last slice instead unlinks the penultimate
artifact), and every intermediate checkpoint written after slice `i`
contains the raw rasterized labels of slices `0..i` (zeros beyond) — not
continuity-aligned ones; alignment runs once after the loop, and the
returned volume is `align_segment_labels` of the raw volume at threshold
0.5.  No intermediate artifact remains afterwards. -/
theorem run_sam_stack_spec {H W : ℕ} (gen : ℕ → List (Mask H W)) (N : ℕ)
    (hN : 2 ≤ N) (hgen : ∀ i < N, gen i ≠ []) (fin : Option (Vol H W)) :
    _run_sam_stack gen N ⟨[], fin⟩ =
      .ok (⟨[], fin⟩,
        (List.range (N - 1)).map (fun i : ℕ => ((i : ℤ), rawUpTo gen N i)),
        align_segment_labels (rawUpTo gen N (N - 1)) (1 / 2)) := by
  have h0N : 0 < N := by omega
  have hrange : List.range N = 0 :: List.range' 1 (N - 1) := by
    obtain ⟨m, hm⟩ : ∃ m, N = m + 1 := ⟨N - 1, by omega⟩
    rw [hm, List.range_eq_range', List.range'_succ, Nat.add_sub_cancel]
  have hcreate := create_mask_arr_eq_ok (gen 0) (hgen 0 h0N)
  have hset : (List.replicate N (zeroGrid H W)).set 0 (rasterOf (gen 0)) =
      rawUpTo gen N 0 := replicate_set_raster gen N h0N
  have hsave0 : save_masks_slice true (⟨[], fin⟩ : FS H W) 0
      (rawUpTo gen N 0) = .ok ⟨[((0 : ℤ), rawUpTo gen N 0)], fin⟩ := by
    simp [save_masks_slice, save_masks_slice_ops, runOps, applyOp, saveInter]
  have hinv := stackLoop_inv gen N hgen (N - 2) 1 (by omega) (by omega)
    (rawUpTo gen N 0) fin [((0 : ℤ), rawUpTo gen N 0)]
  norm_num at hinv
  have hlog : List.range (N - 1) = 0 :: List.range' 1 (N - 1 - 1) := by
    obtain ⟨m, hm⟩ : ∃ m, N - 1 = m + 1 := ⟨N - 2, by omega⟩
    rw [hm, List.range_eq_range', List.range'_succ, Nat.add_sub_cancel]
  rw [_run_sam_stack, hrange]
  simp only [stackLoop, hcreate, hset]
  rw [if_pos (by omega)]
  simp only [hsave0, List.nil_append, Nat.cast_zero]
  rw [hinv, hlog]
  simp

/-- The generator for the concrete three-slice 1×2 stack used by the C2
counterexample and witness: slice 0 has a full-frame candidate (area 2)
under a left-pixel candidate (area 1); slices 1 and 2 each have only the
left-pixel candidate. -/
def cgen : ℕ → List (Mask 1 2) := fun i =>
  if i = 0 then [w1Mask1, w1Mask2] else [w1Mask2]

/-- Rasterization of slice 0 of the counterexample stack. -/
def cg0 : Grid 1 2 := fun p => if p.2 = 0 then 2 else 1

/-- Raw rasterization of slices 1 and 2 of the counterexample stack. -/
def cg1 : Grid 1 2 := fun p => if p.2 = 0 then 1 else 0

/-- The continuity-aligned form of slices 1 and 2: the left-pixel object
inherits identifier 2 from slice 0. -/
def cga : Grid 1 2 := fun p => if p.2 = 0 then 2 else 0

theorem align_pair_cg0 : align_pair cg0 cg1 (1 / 2) = cga := by
  funext p
  rw [align_pair_apply]
  have hroi : roiLabels cg0 cg1 1 ≠ [] := by decide
  have hbest : bestPrev cg0 cg1 1 = 2 := by decide
  have hmax : maxRoiCount cg0 cg1 1 = 1 := by decide
  have hlc : labelCount cg1 1 = 1 := by decide
  have hnew : newLabelFor cg0 cg1 (2⁻¹) 1 = 2 := by
    rw [newLabelFor, if_pos hroi, if_pos ?_, hbest]
    rw [hmax, hlc]
    norm_num
  rcases p with ⟨i, j⟩
  fin_cases i <;> fin_cases j <;> simp [cg1, cga, hnew]

theorem align_pair_cga : align_pair cga cg1 (1 / 2) = cga := by
  funext p
  rw [align_pair_apply]
  have hroi : roiLabels cga cg1 1 ≠ [] := by decide
  have hbest : bestPrev cga cg1 1 = 2 := by decide
  have hmax : maxRoiCount cga cg1 1 = 1 := by decide
  have hlc : labelCount cg1 1 = 1 := by decide
  have hnew : newLabelFor cga cg1 (2⁻¹) 1 = 2 := by
    rw [newLabelFor, if_pos hroi, if_pos ?_, hbest]
    rw [hmax, hlc]
    norm_num
  rcases p with ⟨i, j⟩
  fin_cases i <;> fin_cases j <;> simp [cg1, cga, hnew]

theorem align_chain :
    align_segment_labels [cg0, cg1, cg1] (1 / 2) = [cg0, cga, cga] := by
  have hr : List.range (([cg0, cg1, cg1] : Vol 1 2).length - 1) = [0, 1] :=
    rfl
  rw [align_segment_labels, hr]
  simp only [List.foldl_cons, List.foldl_nil]
  norm_num [align_pair_cg0, align_pair_cga]

/-- C2 counterexample: on the concrete three-slice stack the intermediate
checkpoint written after slice 1 holds the raw rasterized slice `cg1`,
while the continuity-aligned labels of slices 0..1 (as returned in the
final volume) hold `cga ≠ cg1` at slice 1 — so intermediate checkpoints do
NOT contain continuity-aligned labels, refuting the claimed per-slice
align-before-store ordering. -/
theorem run_sam_stack_checkpoint_raw :
    _run_sam_stack cgen 3 (⟨[], none⟩ : FS 1 2) =
      .ok (⟨[], none⟩,
        [((0 : ℤ), [cg0, zeroGrid 1 2, zeroGrid 1 2]),
         ((1 : ℤ), [cg0, cg1, zeroGrid 1 2])],
        [cg0, cga, cga]) ∧
    cg1 ≠ cga := by
  constructor
  · rw [run_sam_stack_spec cgen 3 (by omega) (by decide) none]
    have e0 : rawUpTo cgen 3 0 = [cg0, zeroGrid 1 2, zeroGrid 1 2] := by
      decide
    have e1 : rawUpTo cgen 3 1 = [cg0, cg1, zeroGrid 1 2] := by decide
    have e2 : rawUpTo cgen 3 2 = [cg0, cg1, cg1] := by decide
    rw [show List.range 2 = [0, 1] from rfl]
    simp only [List.map_cons, List.map_nil, e0, e1, e2, align_chain]
    norm_num
  · decide

/-- Witness for C2's amended theorem at the concrete three-slice stack. -/
theorem run_sam_stack_spec_witness :
    (2 ≤ 3 ∧ ∀ i < 3, cgen i ≠ []) ∧
    _run_sam_stack cgen 3 (⟨[], none⟩ : FS 1 2) =
      .ok (⟨[], none⟩,
        (List.range 2).map (fun i : ℕ => ((i : ℤ), rawUpTo cgen 3 i)),
        align_segment_labels (rawUpTo cgen 3 2) (1 / 2)) :=
  ⟨⟨by omega, by decide⟩,
    run_sam_stack_spec cgen 3 (by omega) (by decide) none⟩

/-- The generator of C6's scenario: every slice yields exactly one
full-frame candidate mask of area 100 on a 10×10 slice. -/
def gen6 : ℕ → List (Mask 10 10) := fun _ => [⟨fun _ => true, 100⟩]

/-- C6: a 1×10×10 stack is 3-dimensional, so `run_sam` sends it to
`_run_sam_stack`, not to the 2D single-slice path; there the single
iteration (`idx = 0 = N - 1`) takes the final-slice branch of lines 80–86
and unlinks `{stem}_masks_-1.npy`, which was never created, so the run
aborts with `FileNotFoundError` before writing any artifact — it does not
complete.  The rasterization itself would be the all-ones 10×10 array, as
the claim says. -/
theorem run_sam_stack_single_slice_crashes :
    _run_sam_stack gen6 1 (⟨[], none⟩ : FS 10 10) = .error .fileNotFound ∧
    create_mask_arr (gen6 0) = .ok (rasterOf (gen6 0)) ∧
    ∀ p : Pix 10 10, rasterOf (gen6 0) p = 1 := by
  refine ⟨by decide, by decide, by decide⟩

end RunSam
